import Mathlib

/-!
Verification of the aggregation and scoring logic of the github-readme-cards
repository (stats card, streak card, top-languages card).

The numeric code of the repository operates on JavaScript numbers; it is
embedded here over the real numbers `ℝ` (for the rank model, which uses
`2 ^ (-x)`) and over the rationals `ℚ` (for the language-percentage model,
where an `Option ℚ` value of `none` stands for the non-finite result NaN of a
JavaScript division by zero).  Integer counters of the source are embedded as
`ℕ`, and the JavaScript sentinel `-1` indices of the streak-range scan as `ℤ`.
-/

namespace GRC

/-! ## Rank model (src/app/api/stats/buildStatsSvg.ts, `calculateRank`) -/

/-- Parameters of `calculateRank` (type `RankParams` of the source; the
`repos` field is declared optional there and unused by the calculation). -/
structure RankParams where
  all_commits : Bool
  totalCommits : ℝ
  prs : ℝ
  issues : ℝ
  reviews : ℝ
  stars : ℝ
  followers : ℝ
  repos : Option ℝ := none

/-- Result of `calculateRank` (type `RankResult` of the source). -/
structure RankResult where
  level : String
  percentile : ℝ

/-- `exponentialCDF(x) = 1 - 2 ** -x` of the source. -/
noncomputable def exponentialCDF (x : ℝ) : ℝ := 1 - 2 ^ (-x)

/-- `logNormalCDF(x) = x / (1 + x)` of the source. -/
noncomputable def logNormalCDF (x : ℝ) : ℝ := x / (1 + x)

/-- The `THRESHOLDS` array of `calculateRank`. -/
noncomputable def THRESHOLDS : List ℝ := [1, 12.5, 25, 37.5, 50, 62.5, 75, 87.5, 100]

/-- The `LEVELS` array of `calculateRank`. -/
def LEVELS : List String := ["S", "A+", "A", "A-", "B+", "B", "B-", "C+", "C"]

/-- The weighted sum of transformed inputs computed by `calculateRank`
(`weightedScore` of the source). -/
noncomputable def weightedScore (p : RankParams) : ℝ :=
  2 * exponentialCDF (p.totalCommits / (if p.all_commits then 1000 else 250)) +
  3 * exponentialCDF (p.prs / 50) +
  1 * exponentialCDF (p.issues / 25) +
  1 * exponentialCDF (p.reviews / 2) +
  4 * logNormalCDF (p.stars / 50) +
  1 * logNormalCDF (p.followers / 10)

/-- `rank = 1 - weightedScore / TOTAL_WEIGHT` of the source
(`TOTAL_WEIGHT = 2 + 3 + 1 + 1 + 4 + 1`). -/
noncomputable def rankValue (p : RankParams) : ℝ :=
  1 - weightedScore p / (2 + 3 + 1 + 1 + 4 + 1)

/-- `THRESHOLDS.findIndex((t) => rank * 100 <= t)` of the source, acting on the
percentile value.  Lean's `List.findIdx` returns the list length when no entry
matches, where JavaScript returns `-1`; both are out of range of `LEVELS`, and
`calculateRank` treats any out-of-range index through the same fallback. -/
noncomputable def levelIndexOf (pct : ℝ) : ℕ :=
  THRESHOLDS.findIdx fun t => decide (pct ≤ t)

/-- `calculateRank` of the source: percentile `rank * 100`, and level
`LEVELS[levelIndex] ?? LEVELS[LEVELS.length - 1]`. -/
noncomputable def calculateRank (p : RankParams) : RankResult :=
  { level := (LEVELS[levelIndexOf (rankValue p * 100)]?).getD
      (LEVELS.getLastD ""),
    percentile := rankValue p * 100 }

/-! ### Reference rank definitions, written from the specification's words
(section 4.3 of the design document), to be compared with `calculateRank`. -/

/-- Modelled from the spec: the exponential cumulative-distribution transform
`f(x) = 1 - 2^(-x/median)` for commits, PRs, issues and reviews. -/
noncomputable def refExpTransform (median x : ℝ) : ℝ := 1 - 2 ^ (-(x / median))

/-- Modelled from the spec: the log-normal-style transform
`g(x) = x / (median + x)` for stars and followers. -/
noncomputable def refLogTransform (median x : ℝ) : ℝ := x / (median + x)

/-- Modelled from the spec: `score = Σ(weight_i × transform_i(value_i)) / Σ(weight_i)`
with weights 2, 3, 1, 1, 4, 1 and medians 1000-or-250, 50, 25, 2, 50, 10. -/
noncomputable def refScore (p : RankParams) : ℝ :=
  (2 * refExpTransform (if p.all_commits then 1000 else 250) p.totalCommits +
   3 * refExpTransform 50 p.prs +
   1 * refExpTransform 25 p.issues +
   1 * refExpTransform 2 p.reviews +
   4 * refLogTransform 50 p.stars +
   1 * refLogTransform 10 p.followers) / (2 + 3 + 1 + 1 + 4 + 1)

/-- Modelled from the spec: `rank = 1 - score`, expressed as a percentile. -/
noncomputable def refPercentile (p : RankParams) : ℝ := (1 - refScore p) * 100

/-- Modelled from the spec: the ascending threshold/label table
{1, 12.5, 25, 37.5, 50, 62.5, 75, 87.5, 100} against {S, A+, A, A-, B+, B, B-, C+, C}. -/
noncomputable def refGradeTable : List (ℝ × String) :=
  [(1, "S"), (12.5, "A+"), (25, "A"), (37.5, "A-"), (50, "B+"),
   (62.5, "B"), (75, "B-"), (87.5, "C+"), (100, "C")]

/-- Modelled from the spec: the first threshold the percentile is `≤`
determines the label; if none match, fall back to the lowest label `C`. -/
noncomputable def refLevelAux : List (ℝ × String) → ℝ → String
  | [], _ => "C"
  | (t, lab) :: rest, pct => if pct ≤ t then lab else refLevelAux rest pct

/-- Modelled from the spec: map a percentile to its letter grade. -/
noncomputable def refLevel (pct : ℝ) : String := refLevelAux refGradeTable pct

/-! ## Streak model (src/unnamed/part_001, `buildStreakSvg` / `computeStreaks`) -/

/-- A day of the contribution calendar (type `ContributionDay` of the source). -/
structure ContributionDay where
  date : String
  contributionCount : ℕ
deriving DecidableEq

/-- Result of `computeStreaks`. -/
structure StreakResult where
  currentStreak : ℕ
  longestStreak : ℕ
deriving DecidableEq

/-- The forward scan of `computeStreaks` computing the longest streak:
`temp` is the running consecutive count, the accumulator is `longest`;
a positive day increments `temp` and raises `longest` when exceeded,
a zero day resets `temp` to 0. -/
def longestLoop : List ContributionDay → ℕ → ℕ → ℕ
  | [], _, longest => longest
  | d :: ds, temp, longest =>
    if 0 < d.contributionCount then
      longestLoop ds (temp + 1) (if longest < temp + 1 then temp + 1 else longest)
    else
      longestLoop ds 0 longest

/-- The backward scan of `computeStreaks` computing the current streak
(`for i = days.length - 1 down to 0 ... else break`), expressed as a forward
scan of the reversed list: count positive days until the first zero day. -/
def currentLoop : List ContributionDay → ℕ
  | [] => 0
  | d :: ds => if 0 < d.contributionCount then currentLoop ds + 1 else 0

/-- `computeStreaks` of the source. -/
def computeStreaks (days : List ContributionDay) : StreakResult :=
  { currentStreak := currentLoop days.reverse,
    longestStreak := longestLoop days 0 0 }

/-- A day with nonzero contribution count. -/
def isActive (d : ContributionDay) : Bool := decide (0 < d.contributionCount)

/-- Modelled from the spec: the number of trailing consecutive days with
nonzero count, counted backward from the most recent day until the first
zero-count day or the sequence start. -/
def trailingActive (days : List ContributionDay) : ℕ :=
  (days.reverse.takeWhile isActive).length

/-- Length of the leading run of active days. -/
def leadLen (l : List ContributionDay) : ℕ := (l.takeWhile isActive).length

/-- Modelled from the spec: the maximum length of a run of consecutive
days with `count > 0` anywhere in the sequence. -/
def maxRun : List ContributionDay → ℕ
  | [] => 0
  | d :: ds => max (leadLen (d :: ds)) (maxRun ds)

/-- The contribution sequence of end-to-end scenario B of the spec:
counts `[1,0,2,3,0,0,1]`, oldest to newest. -/
def exampleDaysB : List ContributionDay :=
  [⟨"2024-01-01", 1⟩, ⟨"2024-01-02", 0⟩, ⟨"2024-01-03", 2⟩, ⟨"2024-01-04", 3⟩,
   ⟨"2024-01-05", 0⟩, ⟨"2024-01-06", 0⟩, ⟨"2024-01-07", 1⟩]

/-! ## Longest-streak index scan (src/unnamed/part_001, lines 107-124)

The source scans forward with state `bestStart = bestEnd = -1`,
`tempStart = 0`, `tempLen = 0`; on an active day it sets `tempStart = i`
when a run begins, increments `tempLen`, and replaces the best pair when
`tempLen > bestEnd - bestStart + 1`; a zero day resets `tempLen`. -/

/-- The loop of the source, with the absolute index `i` made explicit and
`tempLen` taken before its increment (the source increments first and then
compares `tempLen > bestEnd - bestStart + 1`, hence the guard `tl + 1`). -/
def bestLoop : List ContributionDay → ℕ → ℤ → ℤ → ℕ → ℕ → ℤ × ℤ
  | [], _, bs, be, _, _ => (bs, be)
  | d :: ds, i, bs, be, ts, tl =>
    if 0 < d.contributionCount then
      if be - bs + 1 < (tl + 1 : ℤ) then
        bestLoop ds (i + 1) ((if tl = 0 then i else ts) : ℤ) (i : ℤ)
          (if tl = 0 then i else ts) (tl + 1)
      else
        bestLoop ds (i + 1) bs be (if tl = 0 then i else ts) (tl + 1)
    else
      bestLoop ds (i + 1) bs be ts 0

/-- The `(bestStart, bestEnd)` pair computed by `buildStreakSvg` for the
longest-streak range display (initial state `bestStart = bestEnd = -1`). -/
def bestIndices (days : List ContributionDay) : ℤ × ℤ :=
  bestLoop days 0 (-1) (-1) 0 0

/-- Contribution count at index `k` (0 outside the sequence). -/
def cntAt (l : List ContributionDay) (k : ℕ) : ℕ :=
  ((l[k]?).map ContributionDay.contributionCount).getD 0

/-- Index `k` holds an active day. -/
def posAt (l : List ContributionDay) (k : ℕ) : Prop := 0 < cntAt l k

/-- Indices `s, s+1, ..., s+n-1` all hold active days. -/
def windowAll (l : List ContributionDay) (s n : ℕ) : Prop :=
  ∀ k, k < n → posAt l (s + k)

/-- Modelled from the spec: `s` starts the first run of consecutive active
days achieving the maximum run length — the least index where `maxRun l`
consecutive active days occur. -/
def firstMaxAt (l : List ContributionDay) (s : ℕ) : Prop :=
  windowAll l s (maxRun l) ∧ ∀ j, j < s → ¬ windowAll l j (maxRun l)

/-- Length of the trailing run of active days. -/
def trailLen (l : List ContributionDay) : ℕ := leadLen l.reverse

/-- The invariant of the best-range scan: either no run longer than one day
has been completed and the pair still holds the `-1` sentinels, or the pair
holds the first maximum run, fully extended. -/
def BestInv (p : List ContributionDay) (bs be : ℤ) : Prop :=
  (maxRun p ≤ 1 ∧ bs = -1 ∧ be = -1) ∨
  (2 ≤ maxRun p ∧ ∃ s : ℕ, firstMaxAt p s ∧ bs = (s : ℤ) ∧
    be = (s : ℤ) + (maxRun p : ℤ) - 1)

/-! ## Top-languages model (src/unnamed/part_000, `fetchTopLanguages`)

The network pagination is external; the embedding takes the collected
per-repository language edges (each repository contributes a list of
`(size, name, color)` edges) and performs the aggregation of the source:
a running total per language name with first-seen color (defaulting on a
missing or empty color), then `percent = size / totalSize * 100`, a
descending stable sort by percent, and `slice(0, 6)`.  A `percent` of
`none` stands for the non-finite result of the JavaScript division by a
zero `totalSize` (`0/0 = NaN`). -/

/-- A GraphQL language edge: `{ size, node: { name, color } }`. -/
structure LangEdge where
  size : ℕ
  name : String
  color : Option String
deriving DecidableEq

/-- An entry of the `totals` record: accumulated byte size and the
first-seen color for one language name. -/
structure LangTotal where
  name : String
  size : ℕ
  color : String
deriving DecidableEq

/-- An output entry `{ name, color, percent }`. -/
structure LangShare where
  name : String
  color : String
  percent : Option ℚ
deriving DecidableEq

/-- The neutral fallback color of the source. -/
def defaultColor : String := "#9e9e9e"

/-- `color || "#9e9e9e"` of the source (a missing or empty color string is
falsy and replaced by the default). -/
def orDefaultColor (c : Option String) : String :=
  match c with
  | none => defaultColor
  | some s => if s = "" then defaultColor else s

/-- One step of the accumulation loop: create the entry on first sight
(`{ size: 0, color: color || default }`), then add the edge size. -/
def addEdge (totals : List LangTotal) (e : LangEdge) : List LangTotal :=
  if totals.any fun t => t.name == e.name then
    totals.map fun t =>
      if t.name = e.name then { t with size := t.size + e.size } else t
  else
    totals ++ [{ name := e.name, size := e.size, color := orDefaultColor e.color }]

/-- The double loop over repositories and their language edges. -/
def aggregate (repos : List (List LangEdge)) : List LangTotal :=
  repos.foldl (fun acc repo => repo.foldl addEdge acc) []

/-- `Object.values(totals).reduce((a, v) => a + v.size, 0)` of the source. -/
def totalSize (totals : List LangTotal) : ℕ :=
  totals.foldl (fun a t => a + t.size) 0

/-- `(size / totalSize) * 100` of the source; `none` models the non-finite
JavaScript result when `totalSize` is zero. -/
def jsPercent (size total : ℕ) : Option ℚ :=
  if total = 0 then none else some ((size : ℚ) / (total : ℚ) * 100)

/-- The `.map` building `{ name, color, percent }` entries. -/
def toShares (totals : List LangTotal) (total : ℕ) : List LangShare :=
  totals.map fun t => { name := t.name, color := t.color,
                        percent := jsPercent t.size total }

/-- The comparator `(a, b) => b.percent - a.percent` as a Boolean order:
`a` may precede `b` when `b.percent ≤ a.percent`; a comparison involving
the non-finite value (whose subtraction yields NaN, leaving the order
unspecified) keeps the original order. -/
def shareLE (a b : LangShare) : Bool :=
  match a.percent, b.percent with
  | some x, some y => decide (y ≤ x)
  | _, _ => true

/-- Stable insertion of one element into a sorted-descending list. -/
def insertShare (x : LangShare) : List LangShare → List LangShare
  | [] => [x]
  | y :: ys => if shareLE x y then x :: y :: ys else y :: insertShare x ys

/-- A stable sort by `shareLE`; on finite percents this computes exactly
what the stable `Array.prototype.sort` of the source computes. -/
def sortShares : List LangShare → List LangShare
  | [] => []
  | x :: xs => insertShare x (sortShares xs)

/-- The computational core of `fetchTopLanguages`: accumulate, compute
percentages, sort descending, take the first 6. -/
def fetchTopLanguagesPure (repos : List (List LangEdge)) : List LangShare :=
  (sortShares (toShares (aggregate repos) (totalSize (aggregate repos)))).take 6

/-- The sum of the (finite) percentages of a share list. -/
def shareSum (l : List LangShare) : ℚ := (l.map fun s => s.percent.getD 0).sum

/-- The input of end-to-end scenario A of the spec: repo1 has
`{JS: 800}`, repo2 has `{JS: 200, Python: 400}`. -/
def exampleReposA : List (List LangEdge) :=
  [[⟨800, "JS", some "#f1e05a"⟩],
   [⟨200, "JS", some "#f1e05a"⟩, ⟨400, "Python", some "#3572A5"⟩]]

/-! ## Stats fan-in and configuration prechecks
(src/app/api/stats/buildStatsSvg.ts, src/unnamed/part_000 `GET`,
src/unnamed/part_001 `buildStreakSvg`) -/

/-- The repository aggregation totals returned by `fetchAllRepos`. -/
structure RepoAggregate where
  totalStars : ℕ
  totalForks : ℕ
  repoCount : ℕ
  activeReposLastYear : ℕ
  totalPRs : ℕ
  totalIssues : ℕ
deriving DecidableEq

/-- `fetchTotalCommitsAllTime` of the source: a falsy login returns 0, an
`ok` response yields `response.data?.total_count ?? 0`, and any thrown error
is caught and degraded to 0 (the `try/catch` of the source). -/
def fetchTotalCommitsAllTime (login : String)
    (resp : Except String (Option ℕ)) : ℕ :=
  if login = "" then 0
  else
    match resp with
    | Except.ok data => data.getD 0
    | Except.error _ => 0

/-- The fan-in sequence of `buildStatsSvg` after validation: the repository
fetch, the commit search (error-absorbing), the review traversal and the
follower lookup; every step except the commit search propagates its
failure to the surrounding `try/catch`. -/
def statsAggregate (login : String) (repoRes : Except String RepoAggregate)
    (commitResp : Except String (Option ℕ)) (reviewsRes : Except String ℕ)
    (followersRes : Except String ℕ) :
    Except String (RepoAggregate × ℕ × ℕ × ℕ) := do
  let repoData ← repoRes
  let commits := fetchTotalCommitsAllTime login commitResp
  let reviews ← reviewsRes
  let followers ← followersRes
  return (repoData, commits, reviews, followers)

/-- A missing or empty environment string is falsy in the source's
`if (!username)` checks. -/
def isFalsy (s : Option String) : Bool :=
  match s with
  | none => true
  | some t => decide (t = "")

/-- The validation at the top of `buildStatsSvg` (lines 239-240): first the
username, then the token, each raising a descriptive error. -/
def statsPrecheckError (username token : Option String) : Option String :=
  if isFalsy username then some "Add github username in env.GITHUB_USERNAME"
  else if isFalsy token then some "Add github token in env.GITHUB_TOKEN"
  else none

/-- The validation at the top of the top-languages `GET` (part_000,
lines 74-75). -/
def topLangPrecheckError (username token : Option String) : Option String :=
  if isFalsy username then some "Missing GITHUB_USERNAME"
  else if isFalsy token then some "Missing GITHUB_TOKEN"
  else none

/-- The validation of `buildStreakSvg` (part_001, line 70): only the
username is checked; the token parameter is never consulted. -/
def streakPrecheckError (username _token : Option String) : Option String :=
  if isFalsy username then some "Add github username in env.GITHUB_USERNAME"
  else none

/-- A card pipeline: a failing precheck short-circuits into the error
branch of the boundary before the fetch result is consulted. -/
def runCard {α : Type} (precheck : Option String) (fetch : Except String α) :
    Except String α :=
  match precheck with
  | some e => Except.error e
  | none => fetch

/-! ## Theorems -/

/-! ### Helper lemmas for the rank model -/

theorem exponentialCDF_nonneg {x : ℝ} (hx : 0 ≤ x) : 0 ≤ exponentialCDF x := by
  have h : (2:ℝ) ^ (-x) ≤ 1 :=
    Real.rpow_le_one_of_one_le_of_nonpos (by norm_num) (by linarith)
  simp only [exponentialCDF]
  linarith

theorem exponentialCDF_mono {x y : ℝ} (h : x ≤ y) :
    exponentialCDF x ≤ exponentialCDF y := by
  have h2 : (2:ℝ) ^ (-y) ≤ (2:ℝ) ^ (-x) :=
    (Real.rpow_le_rpow_left_iff (by norm_num)).mpr (by linarith)
  simp only [exponentialCDF]
  linarith

theorem logNormalCDF_nonneg {x : ℝ} (hx : 0 ≤ x) : 0 ≤ logNormalCDF x :=
  div_nonneg hx (by linarith)

theorem logNormalCDF_mono {x y : ℝ} (hx : 0 ≤ x) (h : x ≤ y) :
    logNormalCDF x ≤ logNormalCDF y := by
  simp only [logNormalCDF]
  rw [div_le_div_iff₀ (by linarith) (by linarith)]
  nlinarith

theorem weightedScore_nonneg {p : RankParams} (h1 : 0 ≤ p.totalCommits)
    (h2 : 0 ≤ p.prs) (h3 : 0 ≤ p.issues) (h4 : 0 ≤ p.reviews)
    (h5 : 0 ≤ p.stars) (h6 : 0 ≤ p.followers) : 0 ≤ weightedScore p := by
  have hm : (0:ℝ) < if p.all_commits then 1000 else 250 := by
    split <;> norm_num
  have e1 := exponentialCDF_nonneg (div_nonneg h1 hm.le)
  have e2 := exponentialCDF_nonneg (div_nonneg h2 (by norm_num : (0:ℝ) ≤ 50))
  have e3 := exponentialCDF_nonneg (div_nonneg h3 (by norm_num : (0:ℝ) ≤ 25))
  have e4 := exponentialCDF_nonneg (div_nonneg h4 (by norm_num : (0:ℝ) ≤ 2))
  have e5 := logNormalCDF_nonneg (div_nonneg h5 (by norm_num : (0:ℝ) ≤ 50))
  have e6 := logNormalCDF_nonneg (div_nonneg h6 (by norm_num : (0:ℝ) ≤ 10))
  simp only [weightedScore]
  linarith

theorem weightedScore_mono {p q : RankParams} (hac : p.all_commits = q.all_commits)
    (h5 : 0 ≤ p.stars) (h6 : 0 ≤ p.followers)
    (l1 : p.totalCommits ≤ q.totalCommits) (l2 : p.prs ≤ q.prs)
    (l3 : p.issues ≤ q.issues) (l4 : p.reviews ≤ q.reviews)
    (l5 : p.stars ≤ q.stars) (l6 : p.followers ≤ q.followers) :
    weightedScore p ≤ weightedScore q := by
  have hm : (0:ℝ) < if p.all_commits then 1000 else 250 := by
    split <;> norm_num
  have e1 : exponentialCDF (p.totalCommits / (if p.all_commits then 1000 else 250)) ≤
      exponentialCDF (q.totalCommits / (if q.all_commits then 1000 else 250)) := by
    rw [← hac]
    exact exponentialCDF_mono (div_le_div_of_nonneg_right l1 hm.le)
  have e2 := exponentialCDF_mono (div_le_div_of_nonneg_right l2 (by norm_num : (0:ℝ) ≤ 50))
  have e3 := exponentialCDF_mono (div_le_div_of_nonneg_right l3 (by norm_num : (0:ℝ) ≤ 25))
  have e4 := exponentialCDF_mono (div_le_div_of_nonneg_right l4 (by norm_num : (0:ℝ) ≤ 2))
  have e5 := logNormalCDF_mono (div_nonneg h5 (by norm_num : (0:ℝ) ≤ 50))
    (div_le_div_of_nonneg_right l5 (by norm_num : (0:ℝ) ≤ 50))
  have e6 := logNormalCDF_mono (div_nonneg h6 (by norm_num : (0:ℝ) ≤ 10))
    (div_le_div_of_nonneg_right l6 (by norm_num : (0:ℝ) ≤ 10))
  simp only [weightedScore]
  linarith

theorem findIdx_le_findIdx_of_imp {α : Type} {p q : α → Bool} :
    ∀ l : List α, (∀ a ∈ l, p a = true → q a = true) →
      l.findIdx q ≤ l.findIdx p
  | [], _ => Nat.le_refl _
  | a :: l, h => by
    by_cases hq : q a = true
    · simp [List.findIdx_cons, hq]
    · have hp : ¬ p a = true := fun hc => hq (h a (by simp) hc)
      simp only [List.findIdx_cons, Bool.cond_eq_if, if_neg hq, if_neg hp]
      have ih := findIdx_le_findIdx_of_imp l fun a ha => h a (by simp [ha])
      omega

theorem findIdx_le_of_getElem {α : Type} {p : α → Bool} :
    ∀ (l : List α) (i : ℕ) (hi : i < l.length), p (l[i]) = true →
      l.findIdx p ≤ i
  | a :: l, 0, _, h => by simp_all [List.findIdx_cons]
  | a :: l, i + 1, hi, h => by
    by_cases ha : p a = true
    · simp [List.findIdx_cons, ha]
    · simp only [List.findIdx_cons, Bool.cond_eq_if, if_neg ha]
      have ih := findIdx_le_of_getElem l i (by simpa using hi) (by simpa using h)
      omega

theorem levelIndexOf_le_eight {pct : ℝ} (h : pct ≤ 100) : levelIndexOf pct ≤ 8 := by
  refine findIdx_le_of_getElem THRESHOLDS 8 (by simp [THRESHOLDS]) ?_
  simp only [THRESHOLDS, List.getElem_cons_succ, List.getElem_cons_zero,
    decide_eq_true_eq]
  exact h

theorem levelIndexOf_mono {a b : ℝ} (h : a ≤ b) :
    levelIndexOf a ≤ levelIndexOf b := by
  refine findIdx_le_findIdx_of_imp THRESHOLDS fun t _ hb => ?_
  have : b ≤ t := of_decide_eq_true hb
  exact decide_eq_true (le_trans h this)

theorem indexOf_levels_getD {i : ℕ} (hi : i ≤ 8) :
    LEVELS.indexOf ((LEVELS[i]?).getD (LEVELS.getLastD "")) = i := by
  interval_cases i <;> decide

theorem level_eq_refLevel (pct : ℝ) :
    (LEVELS[levelIndexOf pct]?).getD (LEVELS.getLastD "") = refLevel pct := by
  simp only [levelIndexOf, THRESHOLDS, refLevel, refGradeTable, LEVELS]
  by_cases h1 : pct ≤ 1
  · simp [refLevelAux, List.findIdx_cons, h1]
  by_cases h2 : pct ≤ 12.5
  · simp [refLevelAux, List.findIdx_cons, h1, h2]
  by_cases h3 : pct ≤ 25
  · simp [refLevelAux, List.findIdx_cons, h1, h2, h3]
  by_cases h4 : pct ≤ 37.5
  · simp [refLevelAux, List.findIdx_cons, h1, h2, h3, h4]
  by_cases h5 : pct ≤ 50
  · simp [refLevelAux, List.findIdx_cons, h1, h2, h3, h4, h5]
  by_cases h6 : pct ≤ 62.5
  · simp [refLevelAux, List.findIdx_cons, h1, h2, h3, h4, h5, h6]
  by_cases h7 : pct ≤ 75
  · simp [refLevelAux, List.findIdx_cons, h1, h2, h3, h4, h5, h6, h7]
  by_cases h8 : pct ≤ 87.5
  · simp [refLevelAux, List.findIdx_cons, h1, h2, h3, h4, h5, h6, h7, h8]
  by_cases h9 : pct ≤ 100
  · simp [refLevelAux, List.findIdx_cons, h1, h2, h3, h4, h5, h6, h7, h8, h9]
  · simp [refLevelAux, List.findIdx_cons, h1, h2, h3, h4, h5, h6, h7, h8, h9]

theorem logNormalCDF_div_eq {m x : ℝ} (hm : 0 < m) (hx : 0 ≤ x) :
    logNormalCDF (x / m) = x / (m + x) := by
  have hmx : m + x ≠ 0 := by positivity
  simp only [logNormalCDF]
  field_simp

theorem refScore_eq {p : RankParams} (h5 : 0 ≤ p.stars) (h6 : 0 ≤ p.followers) :
    refScore p = weightedScore p / (2 + 3 + 1 + 1 + 4 + 1) := by
  have e5 := logNormalCDF_div_eq (m := 50) (by norm_num) h5
  have e6 := logNormalCDF_div_eq (m := 10) (by norm_num) h6
  simp only [refScore, weightedScore, refExpTransform, refLogTransform,
    exponentialCDF, neg_div, e5, e6]

theorem refPercentile_eq {p : RankParams} (h5 : 0 ≤ p.stars) (h6 : 0 ≤ p.followers) :
    refPercentile p = rankValue p * 100 := by
  rw [refPercentile, refScore_eq h5 h6, rankValue]

theorem weightedScore_zero (b : Bool) (r : Option ℝ) :
    weightedScore { all_commits := b, totalCommits := 0, prs := 0, issues := 0,
                    reviews := 0, stars := 0, followers := 0, repos := r } = 0 := by
  simp [weightedScore, exponentialCDF, logNormalCDF, zero_div, Real.rpow_zero]

theorem levelIndexOf_hundred : levelIndexOf 100 = 8 := by
  have h1 : ¬ ((100:ℝ) ≤ 1) := by norm_num
  have h2 : ¬ ((100:ℝ) ≤ 12.5) := by norm_num
  have h3 : ¬ ((100:ℝ) ≤ 25) := by norm_num
  have h4 : ¬ ((100:ℝ) ≤ 37.5) := by norm_num
  have h5 : ¬ ((100:ℝ) ≤ 50) := by norm_num
  have h6 : ¬ ((100:ℝ) ≤ 62.5) := by norm_num
  have h7 : ¬ ((100:ℝ) ≤ 75) := by norm_num
  have h8 : ¬ ((100:ℝ) ≤ 87.5) := by norm_num
  have h9 : (100:ℝ) ≤ 100 := le_refl _
  simp [levelIndexOf, THRESHOLDS, List.findIdx_cons, h1, h2, h3, h4, h5, h6, h7, h8, h9]

/-- C1: for non-negative rank inputs, increasing inputs of `calculateRank`
(while `all_commits` stays fixed) never increases the returned percentile and
never moves the returned level to a lower-quality (larger-index) label in the
ordered `LEVELS` list S, A+, A, A-, B+, B, B-, C+, C.  Stated jointly over all
six inputs, which subsumes increasing any single input with the others held
fixed. -/
theorem C1_calculateRank_monotonic :
    ∀ p q : RankParams, p.all_commits = q.all_commits →
      0 ≤ p.totalCommits → 0 ≤ p.prs → 0 ≤ p.issues → 0 ≤ p.reviews →
      0 ≤ p.stars → 0 ≤ p.followers →
      p.totalCommits ≤ q.totalCommits → p.prs ≤ q.prs → p.issues ≤ q.issues →
      p.reviews ≤ q.reviews → p.stars ≤ q.stars → p.followers ≤ q.followers →
      (calculateRank q).percentile ≤ (calculateRank p).percentile ∧
      LEVELS.indexOf (calculateRank q).level ≤ LEVELS.indexOf (calculateRank p).level := by
  intro p q hac h1 h2 h3 h4 h5 h6 l1 l2 l3 l4 l5 l6
  have hws := weightedScore_mono hac h5 h6 l1 l2 l3 l4 l5 l6
  have hwp := weightedScore_nonneg h1 h2 h3 h4 h5 h6
  have hwq := weightedScore_nonneg (p := q) (le_trans h1 l1) (le_trans h2 l2)
    (le_trans h3 l3) (le_trans h4 l4) (le_trans h5 l5) (le_trans h6 l6)
  have hpct : rankValue q * 100 ≤ rankValue p * 100 := by
    simp only [rankValue]; nlinarith
  have hp100 : rankValue p * 100 ≤ 100 := by
    simp only [rankValue]; nlinarith
  have hq100 : rankValue q * 100 ≤ 100 := le_trans hpct hp100
  refine ⟨hpct, ?_⟩
  have hidx := levelIndexOf_mono hpct
  have hip := levelIndexOf_le_eight hp100
  have hiq := levelIndexOf_le_eight hq100
  show LEVELS.indexOf ((LEVELS[levelIndexOf (rankValue q * 100)]?).getD (LEVELS.getLastD "")) ≤
    LEVELS.indexOf ((LEVELS[levelIndexOf (rankValue p * 100)]?).getD (LEVELS.getLastD ""))
  rw [indexOf_levels_getD hiq, indexOf_levels_getD hip]
  exact hidx

/-- C1 witness: the monotonicity theorem applied to the all-zero parameters
and a pointwise-larger concrete parameter set. -/
theorem C1_calculateRank_monotonic_witness :
    (calculateRank ⟨true, 100, 10, 5, 2, 50, 10, none⟩).percentile ≤
      (calculateRank ⟨true, 0, 0, 0, 0, 0, 0, none⟩).percentile ∧
    LEVELS.indexOf (calculateRank ⟨true, 100, 10, 5, 2, 50, 10, none⟩).level ≤
      LEVELS.indexOf (calculateRank ⟨true, 0, 0, 0, 0, 0, 0, none⟩).level :=
  C1_calculateRank_monotonic ⟨true, 0, 0, 0, 0, 0, 0, none⟩
    ⟨true, 100, 10, 5, 2, 50, 10, none⟩ rfl le_rfl le_rfl le_rfl le_rfl le_rfl
    le_rfl (by norm_num) (by norm_num) (by norm_num) (by norm_num)
    (by norm_num) (by norm_num)

/-- C2: for non-negative rank inputs, `calculateRank` agrees with the
reference definition written from the specification (exponential and
log-normal transforms, weight-normalized score, percentile `(1 - score) * 100`
and the first-matching-threshold grade table with fallback `C`); and all-zero
inputs yield percentile 100 and level `C`. -/
theorem C2_calculateRank_refines_spec :
    (∀ p : RankParams, 0 ≤ p.totalCommits → 0 ≤ p.prs → 0 ≤ p.issues →
      0 ≤ p.reviews → 0 ≤ p.stars → 0 ≤ p.followers →
      (calculateRank p).percentile = refPercentile p ∧
      (calculateRank p).level = refLevel (refPercentile p)) ∧
    (∀ b : Bool,
      calculateRank ⟨b, 0, 0, 0, 0, 0, 0, none⟩ =
        { level := "C", percentile := 100 }) := by
  constructor
  · intro p h1 h2 h3 h4 h5 h6
    have hpe := refPercentile_eq h5 h6
    constructor
    · simp only [calculateRank, hpe]
    · show (LEVELS[levelIndexOf (rankValue p * 100)]?).getD (LEVELS.getLastD "") = _
      rw [level_eq_refLevel, hpe]
  · intro b
    have hz := weightedScore_zero b none
    have hr : rankValue ⟨b, 0, 0, 0, 0, 0, 0, none⟩ = 1 := by
      simp only [rankValue]
      rw [hz]
      norm_num
    simp [calculateRank, hr, levelIndexOf_hundred, LEVELS]

/-- C2 witness: the refinement theorem applied to the all-zero parameters. -/
theorem C2_calculateRank_refines_spec_witness :
    (calculateRank ⟨true, 0, 0, 0, 0, 0, 0, none⟩).percentile =
      refPercentile ⟨true, 0, 0, 0, 0, 0, 0, none⟩ ∧
    (calculateRank ⟨true, 0, 0, 0, 0, 0, 0, none⟩).level =
      refLevel (refPercentile ⟨true, 0, 0, 0, 0, 0, 0, none⟩) :=
  C2_calculateRank_refines_spec.1 ⟨true, 0, 0, 0, 0, 0, 0, none⟩
    le_rfl le_rfl le_rfl le_rfl le_rfl le_rfl

/-- C10: `calculateRank` is deterministic and independent of the optional
`repos` field: parameters agreeing on `all_commits`, `totalCommits`, `prs`,
`issues`, `reviews`, `stars` and `followers` (but possibly differing in
`repos`) give identical results, and equal inputs give equal results. -/
theorem C10_calculateRank_ignores_repos :
    (∀ p q : RankParams, p.all_commits = q.all_commits →
      p.totalCommits = q.totalCommits → p.prs = q.prs → p.issues = q.issues →
      p.reviews = q.reviews → p.stars = q.stars → p.followers = q.followers →
      calculateRank p = calculateRank q) ∧
    (∀ p : RankParams, calculateRank p = calculateRank p) := by
  constructor
  · intro p q h1 h2 h3 h4 h5 h6 h7
    unfold calculateRank rankValue weightedScore
    rw [h1, h2, h3, h4, h5, h6, h7]
  · intro p
    rfl

/-- C10 witness: two parameter records differing only in the `repos` field
produce the same rank. -/
theorem C10_calculateRank_ignores_repos_witness :
    calculateRank ⟨true, 1, 2, 3, 4, 5, 6, none⟩ =
      calculateRank ⟨true, 1, 2, 3, 4, 5, 6, some 7⟩ :=
  C10_calculateRank_ignores_repos.1 ⟨true, 1, 2, 3, 4, 5, 6, none⟩
    ⟨true, 1, 2, 3, 4, 5, 6, some 7⟩ rfl rfl rfl rfl rfl rfl rfl

/-! ### Streak helper lemmas -/

theorem leadLen_cons_active {d : ContributionDay} {ds : List ContributionDay}
    (h : 0 < d.contributionCount) : leadLen (d :: ds) = leadLen ds + 1 := by
  simp [leadLen, List.takeWhile_cons, isActive, h]

theorem leadLen_cons_inactive {d : ContributionDay} {ds : List ContributionDay}
    (h : ¬ 0 < d.contributionCount) : leadLen (d :: ds) = 0 := by
  simp [leadLen, List.takeWhile_cons, isActive, h]

theorem currentLoop_eq_takeWhile (l : List ContributionDay) :
    currentLoop l = (l.takeWhile isActive).length := by
  induction l with
  | nil => rfl
  | cons d ds ih =>
    by_cases h : 0 < d.contributionCount
    · simp [currentLoop, ih, List.takeWhile_cons, isActive, h]
    · simp [currentLoop, List.takeWhile_cons, isActive, h]

theorem leadLen_le_maxRun (l : List ContributionDay) : leadLen l ≤ maxRun l := by
  cases l with
  | nil => simp [leadLen, maxRun]
  | cons d ds => exact le_max_left _ _

theorem longestLoop_eq (l : List ContributionDay) :
    ∀ temp best : ℕ, temp ≤ best →
      longestLoop l temp best = max best (max (temp + leadLen l) (maxRun l)) := by
  induction l with
  | nil =>
    intro temp best h
    simp only [longestLoop, leadLen, maxRun, List.takeWhile_nil, List.length_nil]
    omega
  | cons d ds ih =>
    intro temp best h
    by_cases hd : 0 < d.contributionCount
    · have hb : (if best < temp + 1 then temp + 1 else best) = max best (temp + 1) := by
        split <;> omega
      rw [longestLoop, if_pos hd, hb,
        ih (temp + 1) (max best (temp + 1)) (le_max_right _ _),
        leadLen_cons_active hd, show maxRun (d :: ds) = max (leadLen (d :: ds)) (maxRun ds) from rfl,
        leadLen_cons_active hd]
      omega
    · have hlead := leadLen_le_maxRun ds
      rw [longestLoop, if_neg hd, ih 0 best (Nat.zero_le _),
        leadLen_cons_inactive hd, show maxRun (d :: ds) = max (leadLen (d :: ds)) (maxRun ds) from rfl,
        leadLen_cons_inactive hd]
      omega

theorem computeStreaks_longest (days : List ContributionDay) :
    (computeStreaks days).longestStreak = maxRun days := by
  show longestLoop days 0 0 = maxRun days
  rw [longestLoop_eq days 0 0 le_rfl]
  have := leadLen_le_maxRun days
  omega

theorem prefix_active_le_leadLen :
    ∀ (r l : List ContributionDay), r <+: l → (∀ d ∈ r, isActive d = true) →
      r.length ≤ leadLen l
  | [], l, _, _ => Nat.zero_le _
  | a :: r, l, h, hall => by
    obtain ⟨t, ht⟩ := h
    subst ht
    have ha : 0 < a.contributionCount := by
      have := hall a (by simp)
      simpa [isActive] using this
    rw [List.cons_append, leadLen_cons_active ha]
    have ih := prefix_active_le_leadLen r (r ++ t) ⟨t, rfl⟩
      (fun d hd => hall d (by simp [hd]))
    simpa using Nat.succ_le_succ ih

theorem infix_active_le_maxRun (l : List ContributionDay) :
    ∀ r, r <:+: l → (∀ d ∈ r, isActive d = true) → r.length ≤ maxRun l := by
  induction l with
  | nil =>
    intro r hr _
    simp [List.infix_nil] at hr
    simp [hr, maxRun]
  | cons d ds ih =>
    rintro r ⟨s, t, hst⟩ hall
    cases s with
    | nil =>
      have hpre : r <+: d :: ds := ⟨t, by simpa using hst⟩
      exact le_trans (prefix_active_le_leadLen r (d :: ds) hpre hall)
        (leadLen_le_maxRun _)
    | cons x s =>
      have hds : s ++ r ++ t = ds := by
        simpa [List.append_assoc] using congrArg List.tail hst
      have hinf : r <:+: ds := ⟨s, t, hds⟩
      exact le_trans (ih r hinf hall) (le_max_right _ _)

theorem exists_infix_maxRun (l : List ContributionDay) :
    ∃ r, r <:+: l ∧ (∀ d ∈ r, isActive d = true) ∧ r.length = maxRun l := by
  induction l with
  | nil => exact ⟨[], ⟨[], [], rfl⟩, by simp, rfl⟩
  | cons d ds ih =>
    rcases le_total (maxRun ds) (leadLen (d :: ds)) with h | h
    · obtain ⟨t, ht⟩ := List.takeWhile_prefix (l := d :: ds) isActive
      refine ⟨(d :: ds).takeWhile isActive, ⟨[], t, by simpa using ht⟩,
        fun a ha => List.mem_takeWhile_imp ha, ?_⟩
      show leadLen (d :: ds) = maxRun (d :: ds)
      have : maxRun (d :: ds) = max (leadLen (d :: ds)) (maxRun ds) := rfl
      omega
    · rcases ih with ⟨r, hinf, hall, hlen⟩
      refine ⟨r, List.infix_cons hinf, hall, ?_⟩
      have : maxRun (d :: ds) = max (leadLen (d :: ds)) (maxRun ds) := rfl
      omega

/-- C3: the computed `currentStreak` equals the number of trailing
consecutive days with nonzero count (counted backward from the most recent
day until the first zero-count day or the sequence start); if the most
recent day has a zero count it is 0 regardless of earlier activity, and for
the empty sequence it is 0. -/
theorem C3_current_streak :
    (∀ days : List ContributionDay,
      (computeStreaks days).currentStreak = trailingActive days) ∧
    (∀ (days : List ContributionDay) (d : ContributionDay),
      days.getLast? = some d → d.contributionCount = 0 →
      (computeStreaks days).currentStreak = 0) ∧
    (computeStreaks []).currentStreak = 0 := by
  refine ⟨fun days => currentLoop_eq_takeWhile days.reverse, ?_, rfl⟩
  intro days d hlast hcount
  show currentLoop days.reverse = 0
  have hhead : days.reverse.head? = some d := by
    rw [← List.getLast?_eq_head?_reverse]
    exact hlast
  cases hrev : days.reverse with
  | nil => rfl
  | cons x xs =>
    rw [hrev] at hhead
    have hx : x = d := by simpa using hhead
    subst hx
    simp [currentLoop, hcount]

/-- C3 witness: a sequence whose most recent day has count 0 has current
streak 0. -/
theorem C3_current_streak_witness :
    (computeStreaks [⟨"2024-01-01", 3⟩, ⟨"2024-01-02", 0⟩]).currentStreak = 0 :=
  C3_current_streak.2.1 [⟨"2024-01-01", 3⟩, ⟨"2024-01-02", 0⟩]
    ⟨"2024-01-02", 0⟩ rfl rfl

/-- C4: the computed `longestStreak` is exactly the maximum length of a run
of consecutive active days anywhere in the sequence (every all-active
contiguous run is no longer than it, and some all-active contiguous run
attains it — length 0 for the empty or all-zero sequence); the computation
is a pure function (equal inputs give equal results); and on the spec's
scenario B counts `[1,0,2,3,0,0,1]` the longest streak is 2 and the current
streak is 1. -/
theorem C4_longest_streak :
    (∀ days : List ContributionDay,
      (∀ r, r <:+: days → (∀ d ∈ r, isActive d = true) →
        r.length ≤ (computeStreaks days).longestStreak) ∧
      (∃ r, r <:+: days ∧ (∀ d ∈ r, isActive d = true) ∧
        r.length = (computeStreaks days).longestStreak)) ∧
    (∀ days : List ContributionDay, computeStreaks days = computeStreaks days) ∧
    (computeStreaks exampleDaysB).longestStreak = 2 ∧
    (computeStreaks exampleDaysB).currentStreak = 1 := by
  refine ⟨fun days => ⟨?_, ?_⟩, fun _ => rfl, by decide, by decide⟩
  · rw [computeStreaks_longest]
    exact infix_active_le_maxRun days
  · rw [computeStreaks_longest]
    exact exists_infix_maxRun days

/-- C4 witness: the upper-bound part applied to scenario B and its `[2,3]`
run. -/
theorem C4_longest_streak_witness :
    ([⟨"2024-01-03", 2⟩, ⟨"2024-01-04", 3⟩] : List ContributionDay).length ≤
      (computeStreaks exampleDaysB).longestStreak :=
  (C4_longest_streak.1 exampleDaysB).1 [⟨"2024-01-03", 2⟩, ⟨"2024-01-04", 3⟩]
    (by decide) (by decide)

/-! ### Index-window lemmas -/

theorem cntAt_cons_succ (d : ContributionDay) (ds : List ContributionDay) (k : ℕ) :
    cntAt (d :: ds) (k + 1) = cntAt ds k := by
  simp [cntAt, List.getElem?_cons_succ]

theorem cntAt_cons_zero (d : ContributionDay) (ds : List ContributionDay) :
    cntAt (d :: ds) 0 = d.contributionCount := by
  simp [cntAt, List.getElem?_cons_zero]

theorem cntAt_out_of_range {l : List ContributionDay} {k : ℕ} (h : l.length ≤ k) :
    cntAt l k = 0 := by
  simp [cntAt, List.getElem?_eq_none h]

theorem posAt_lt_length {l : List ContributionDay} {k : ℕ} (h : posAt l k) :
    k < l.length := by
  by_contra hk
  rw [posAt, cntAt_out_of_range (by omega)] at h
  exact absurd h (by omega)

theorem cntAt_append (p : List ContributionDay) (d : ContributionDay) (k : ℕ) :
    cntAt (p ++ [d]) k =
      if k < p.length then cntAt p k
      else if k = p.length then d.contributionCount else 0 := by
  by_cases h : k < p.length
  · rw [if_pos h]
    simp [cntAt, List.getElem?_append_left h]
  · rw [if_neg h]
    by_cases h2 : k = p.length
    · subst h2
      rw [if_pos rfl]
      simp [cntAt, List.getElem?_append_right (le_refl p.length)]
    · rw [if_neg h2]
      exact cntAt_out_of_range (by simp; omega)

theorem posAt_append_lt {p : List ContributionDay} {d : ContributionDay} {k : ℕ}
    (h : k < p.length) : posAt (p ++ [d]) k ↔ posAt p k := by
  simp [posAt, cntAt_append, h]

theorem posAt_append_length (p : List ContributionDay) (d : ContributionDay) :
    posAt (p ++ [d]) p.length ↔ 0 < d.contributionCount := by
  simp [posAt, cntAt_append]

theorem posAt_append_inactive {p : List ContributionDay} {d : ContributionDay}
    (hd : ¬ 0 < d.contributionCount) (k : ℕ) :
    posAt (p ++ [d]) k ↔ posAt p k := by
  rcases lt_trichotomy k p.length with h | h | h
  · exact posAt_append_lt h
  · subst h
    rw [posAt_append_length]
    have : cntAt p p.length = 0 := cntAt_out_of_range le_rfl
    simp [posAt, this]
    omega
  · have h1 : cntAt (p ++ [d]) k = 0 := cntAt_out_of_range (by simp; omega)
    have h2 : cntAt p k = 0 := cntAt_out_of_range (by omega)
    simp [posAt, h1, h2]

theorem windowAll_le_length {l : List ContributionDay} {s n : ℕ} (hn : 0 < n)
    (h : windowAll l s n) : s + n ≤ l.length := by
  have := posAt_lt_length (h (n - 1) (by omega))
  omega

theorem windowAll_append_left {p : List ContributionDay} {d : ContributionDay}
    {s n : ℕ} (hn : s + n ≤ p.length) (h : windowAll p s n) :
    windowAll (p ++ [d]) s n := by
  intro k hk
  exact (posAt_append_lt (by omega)).mpr (h k hk)

theorem windowAll_append_sub {p : List ContributionDay} {d : ContributionDay}
    {s n : ℕ} (hn : s + n ≤ p.length) (h : windowAll (p ++ [d]) s n) :
    windowAll p s n := by
  intro k hk
  exact (posAt_append_lt (by omega)).mp (h k hk)

theorem windowAll_append_inactive {p : List ContributionDay} {d : ContributionDay}
    (hd : ¬ 0 < d.contributionCount) (s n : ℕ) :
    windowAll (p ++ [d]) s n ↔ windowAll p s n := by
  constructor <;> intro h k hk
  · exact (posAt_append_inactive hd _).mp (h k hk)
  · exact (posAt_append_inactive hd _).mpr (h k hk)

theorem windowAll_imp_le_maxRun {l : List ContributionDay} {s n : ℕ}
    (h : windowAll l s n) : n ≤ maxRun l := by
  rcases Nat.eq_zero_or_pos n with h0 | h0
  · simp [h0]
  have hlen : s + n ≤ l.length := windowAll_le_length h0 h
  set r : List ContributionDay := (l.drop s).take n with hr
  have hrlen : r.length = n := by
    simp [hr]
    omega
  have hinf : r <:+: l := by
    refine ⟨l.take s, (l.drop s).drop n, ?_⟩
    rw [List.append_assoc, List.take_append_drop, List.take_append_drop]
  have hall : ∀ x ∈ r, isActive x = true := by
    intro x hx
    obtain ⟨k, hk, hxk⟩ := List.mem_iff_getElem.mp hx
    have hk2 : k < n := by omega
    have hq : r[k]? = l[s + k]? := by
      rw [hr, List.getElem?_take, if_pos hk2, List.getElem?_drop]
    have hsome : some x = l[s + k]? := by
      rw [← hq, List.getElem?_eq_getElem hk, hxk]
    have hp := h k hk2
    simp [posAt, cntAt, ← hsome] at hp
    simpa [isActive] using hp
  have := infix_active_le_maxRun l r hinf hall
  omega

theorem maxRun_exists_window (l : List ContributionDay) :
    ∃ s, windowAll l s (maxRun l) := by
  obtain ⟨r, ⟨u, v, huv⟩, hall, hlen⟩ := exists_infix_maxRun l
  refine ⟨u.length, fun k hk => ?_⟩
  rw [← hlen] at hk
  have hq : l[u.length + k]? = some (r[k]) := by
    rw [← huv, List.append_assoc,
      List.getElem?_append_right (by omega : u.length ≤ u.length + k)]
    have huk : u.length + k - u.length = k := by omega
    rw [huk, List.getElem?_append_left hk, List.getElem?_eq_getElem hk]
  have hact := hall (r[k]) (List.getElem_mem hk)
  simp [posAt, cntAt, hq]
  simpa [isActive] using hact

/-! ### Trailing-run lemmas -/

theorem trailLen_nil : trailLen [] = 0 := rfl

theorem trailLen_append_active {p : List ContributionDay} {d : ContributionDay}
    (hd : 0 < d.contributionCount) : trailLen (p ++ [d]) = trailLen p + 1 := by
  simp only [trailLen, List.reverse_append, List.reverse_cons, List.reverse_nil,
    List.nil_append, List.singleton_append]
  exact leadLen_cons_active hd

theorem trailLen_append_inactive {p : List ContributionDay} {d : ContributionDay}
    (hd : ¬ 0 < d.contributionCount) : trailLen (p ++ [d]) = 0 := by
  simp only [trailLen, List.reverse_append, List.reverse_cons, List.reverse_nil,
    List.nil_append, List.singleton_append]
  exact leadLen_cons_inactive hd

theorem leadLen_le_length (l : List ContributionDay) : leadLen l ≤ l.length :=
  List.IsPrefix.length_le (List.takeWhile_prefix _)

theorem trailLen_le_length (p : List ContributionDay) : trailLen p ≤ p.length := by
  have := leadLen_le_length p.reverse
  simpa [trailLen] using this

theorem maxRun_reverse_le (l : List ContributionDay) :
    maxRun l.reverse ≤ maxRun l := by
  obtain ⟨r, hinf, hall, hlen⟩ := exists_infix_maxRun l.reverse
  have hinf2 : r.reverse <:+: l := by
    have h' : r.reverse.reverse <:+: l.reverse := by
      simpa [List.reverse_reverse] using hinf
    exact Iff.mp List.reverse_infix h'
  have hall2 : ∀ d ∈ r.reverse, isActive d = true := by
    intro d hd
    exact hall d (List.mem_reverse.mp hd)
  have := infix_active_le_maxRun l r.reverse hinf2 hall2
  simpa [hlen] using this

theorem maxRun_reverse (l : List ContributionDay) : maxRun l.reverse = maxRun l := by
  refine le_antisymm (maxRun_reverse_le l) ?_
  have := maxRun_reverse_le l.reverse
  simpa [List.reverse_reverse] using this

theorem trailLen_le_maxRun (p : List ContributionDay) : trailLen p ≤ maxRun p := by
  have := leadLen_le_maxRun p.reverse
  rw [maxRun_reverse] at this
  exact this

theorem maxRun_append_active {p : List ContributionDay} {d : ContributionDay}
    (hd : 0 < d.contributionCount) :
    maxRun (p ++ [d]) = max (maxRun p) (trailLen p + 1) := by
  rw [← maxRun_reverse (p ++ [d])]
  have h1 : (p ++ [d]).reverse = d :: p.reverse := by
    simp
  rw [h1, show maxRun (d :: p.reverse) = max (leadLen (d :: p.reverse)) (maxRun p.reverse) from rfl,
    leadLen_cons_active hd, maxRun_reverse]
  show max (leadLen p.reverse + 1) (maxRun p) = _
  rw [trailLen]
  omega

theorem maxRun_append_inactive {p : List ContributionDay} {d : ContributionDay}
    (hd : ¬ 0 < d.contributionCount) : maxRun (p ++ [d]) = maxRun p := by
  rw [← maxRun_reverse (p ++ [d])]
  have h1 : (p ++ [d]).reverse = d :: p.reverse := by
    simp
  rw [h1, show maxRun (d :: p.reverse) = max (leadLen (d :: p.reverse)) (maxRun p.reverse) from rfl,
    leadLen_cons_inactive hd, maxRun_reverse]
  omega

theorem leadLen_ge_of_forall :
    ∀ (l : List ContributionDay) (n : ℕ), (∀ k, k < n → posAt l k) → n ≤ leadLen l
  | _, 0, _ => Nat.zero_le _
  | [], n + 1, h => by
    have := h 0 (by omega)
    simp [posAt, cntAt] at this
  | d :: ds, n + 1, h => by
    have hd : 0 < d.contributionCount := by
      have := h 0 (by omega)
      simpa [posAt, cntAt_cons_zero] using this
    rw [leadLen_cons_active hd]
    have ih := leadLen_ge_of_forall ds n (fun k hk => by
      have := h (k + 1) (by omega)
      simpa [posAt, cntAt_cons_succ] using this)
    omega

theorem posAt_reverse {l : List ContributionDay} {j : ℕ} (hj : j < l.length) :
    posAt l.reverse j ↔ posAt l (l.length - 1 - j) := by
  have h1 : l.reverse[j]? = l[l.length - 1 - j]? :=
    List.getElem?_reverse (by simpa using hj)
  simp [posAt, cntAt, h1]

theorem windowAll_trailing (p : List ContributionDay) :
    windowAll p (p.length - trailLen p) (trailLen p) := by
  intro k hk
  have htl : trailLen p ≤ p.length := trailLen_le_length p
  have hlead : ∀ j, j < leadLen p.reverse → posAt p.reverse j := by
    intro j hjl
    have hjt : j < (p.reverse.takeWhile isActive).length := hjl
    obtain ⟨t, ht⟩ := List.takeWhile_prefix (l := p.reverse) isActive
    have hjq : p.reverse[j]? = some ((p.reverse.takeWhile isActive)[j]) := by
      conv_lhs => rw [← ht]
      rw [List.getElem?_append_left hjt]
      exact List.getElem?_eq_getElem hjt
    have hact := List.mem_takeWhile_imp (List.getElem_mem hjt)
    simp [posAt, cntAt, hjq]
    simpa [isActive] using hact
  have hk2 : k < leadLen p.reverse := hk
  have hrev := hlead (trailLen p - 1 - k)
    (by simp only [trailLen]; omega)
  rw [posAt_reverse (by omega)] at hrev
  have heq : p.length - 1 - (trailLen p - 1 - k) = p.length - trailLen p + k := by
    omega
  rwa [heq] at hrev

theorem trailLen_ge_of_windowAll_suffix {p : List ContributionDay} {s n : ℕ}
    (h : windowAll p s n) (hend : s + n = p.length) : n ≤ trailLen p := by
  rcases Nat.eq_zero_or_pos n with h0 | h0
  · omega
  have hlen : s + n ≤ p.length := windowAll_le_length h0 h
  have : ∀ j, j < n → posAt p.reverse j := by
    intro j hj
    have hpj := h (n - 1 - j) (by omega)
    have heq : s + (n - 1 - j) = p.length - 1 - j := by omega
    rw [heq] at hpj
    rw [posAt_reverse (by omega)]
    exact hpj
  have := leadLen_ge_of_forall p.reverse n this
  simpa [trailLen] using this

theorem windowAll_trailing_append {p : List ContributionDay} {d : ContributionDay}
    (hd : 0 < d.contributionCount) :
    windowAll (p ++ [d]) (p.length - trailLen p) (trailLen p + 1) := by
  intro k hk
  have htl := trailLen_le_length p
  by_cases hkt : k < trailLen p
  · exact (posAt_append_lt (by omega)).mpr (windowAll_trailing p k hkt)
  · have hke : k = trailLen p := by omega
    subst hke
    have heq : p.length - trailLen p + trailLen p = p.length := by omega
    rw [heq]
    exact (posAt_append_length p d).mpr hd

theorem bestLoop_inv :
    ∀ (l p : List ContributionDay) (bs be : ℤ) (ts tl : ℕ),
      tl = trailLen p →
      (0 < tl → ts = p.length - tl) →
      BestInv p bs be →
      BestInv (p ++ l) (bestLoop l p.length bs be ts tl).1
        (bestLoop l p.length bs be ts tl).2 := by
  intro l
  induction l with
  | nil =>
    intro p bs be ts tl _ _ hInv
    simpa [bestLoop] using hInv
  | cons d ds ih =>
    intro p bs be ts tl htl hts hInv
    have hP : p ++ d :: ds = (p ++ [d]) ++ ds := by simp
    rw [hP]
    have htl_le : tl ≤ maxRun p := htl ▸ trailLen_le_maxRun p
    have htl_len : tl ≤ p.length := htl ▸ trailLen_le_length p
    have hlen1 : p.length + 1 = (p ++ [d]).length := by simp
    by_cases hd : 0 < d.contributionCount
    · have h1 : tl + 1 = trailLen (p ++ [d]) := by
        rw [trailLen_append_active hd, ← htl]
      have h2 : 0 < tl + 1 → (if tl = 0 then p.length else ts) = (p ++ [d]).length - (tl + 1) := by
        intro _
        by_cases h0 : tl = 0
        · rw [if_pos h0, ← hlen1]
          omega
        · rw [if_neg h0]
          have := hts (by omega)
          rw [← hlen1]
          omega
      have hMa : maxRun (p ++ [d]) = max (maxRun p) (tl + 1) := by
        rw [maxRun_append_active hd, ← htl]
      by_cases hup : be - bs + 1 < (tl + 1 : ℤ)
      · -- update branch: the run grows past the recorded best
        have htlM : tl = maxRun p ∧ 1 ≤ tl := by
          rcases hInv with ⟨hM1, hbs, hbe⟩ | ⟨hM2, s₀, hfm, hbs, hbe⟩
          · rw [hbs, hbe] at hup
            omega
          · rw [hbs, hbe] at hup
            omega
        have hM' : maxRun (p ++ [d]) = tl + 1 := by
          rw [hMa]
          omega
        have hts' : ts = p.length - tl := hts (by omega)
        have h3 : BestInv (p ++ [d]) (if tl = 0 then ((p.length : ℕ) : ℤ) else ((ts : ℕ) : ℤ))
            ((p.length : ℕ) : ℤ) := by
          refine Or.inr ⟨by omega, p.length - tl, ⟨?_, ?_⟩, ?_, ?_⟩
          · rw [hM']
            have hgoal := windowAll_trailing_append (p := p) (d := d) hd
            rw [← htl] at hgoal
            exact hgoal
          · rw [hM']
            intro j hj hw
            by_cases hcase : j + (tl + 1) ≤ p.length
            · have hwp := windowAll_append_sub hcase hw
              have := windowAll_imp_le_maxRun hwp
              omega
            · have hjlen := windowAll_le_length (by omega) hw
              rw [← hlen1] at hjlen
              omega
          · rw [if_neg (by omega : ¬ tl = 0), hts']
          · rw [hM']
            omega
        rw [bestLoop, if_pos hd, if_pos hup, hlen1]
        exact ih (p ++ [d]) _ _ _ _ h1 h2 h3
      · -- no-update branch on an active day
        have h3 : BestInv (p ++ [d]) bs be := by
          rcases hInv with ⟨hM1, hbs, hbe⟩ | ⟨hM2, s₀, hfm, hbs, hbe⟩
          · have htl0 : tl = 0 := by
              rw [hbs, hbe] at hup
              omega
            refine Or.inl ⟨?_, hbs, hbe⟩
            rw [hMa]
            omega
          · have htlM : tl < maxRun p := by
              rw [hbs, hbe] at hup
              omega
            have hM' : maxRun (p ++ [d]) = maxRun p := by
              rw [hMa]
              omega
            have hs0 : s₀ + maxRun p ≤ p.length :=
              windowAll_le_length (by omega) hfm.1
            refine Or.inr ⟨by omega, s₀, ⟨?_, ?_⟩, hbs, by rw [hM']; exact hbe⟩
            · rw [hM']
              exact windowAll_append_left hs0 hfm.1
            · rw [hM']
              intro j hj hw
              by_cases hcase : j + maxRun p ≤ p.length
              · exact hfm.2 j hj (windowAll_append_sub hcase hw)
              · have hjlen := windowAll_le_length (by omega) hw
                rw [← hlen1] at hjlen
                have hje : j + maxRun p = p.length + 1 := by omega
                have hwp : windowAll p j (maxRun p - 1) := by
                  intro k hk
                  exact (posAt_append_lt (by omega)).mp (hw k (by omega))
                have htr := trailLen_ge_of_windowAll_suffix hwp (by omega)
                omega
        rw [bestLoop, if_pos hd, if_neg hup, hlen1]
        exact ih (p ++ [d]) _ _ _ _ h1 h2 h3
    · -- inactive day: temp run resets, best pair unchanged
      have h1 : (0 : ℕ) = trailLen (p ++ [d]) := (trailLen_append_inactive hd).symm
      have h2 : 0 < (0 : ℕ) → ts = (p ++ [d]).length - 0 := fun h => absurd h (by omega)
      have h3 : BestInv (p ++ [d]) bs be := by
        rcases hInv with ⟨hM1, hbs, hbe⟩ | ⟨hM2, s₀, hfm, hbs, hbe⟩
        · exact Or.inl ⟨by rw [maxRun_append_inactive hd]; exact hM1, hbs, hbe⟩
        · refine Or.inr ⟨by rw [maxRun_append_inactive hd]; exact hM2, s₀, ⟨?_, ?_⟩,
            hbs, by rw [maxRun_append_inactive hd]; exact hbe⟩
          · rw [maxRun_append_inactive hd]
            exact (windowAll_append_inactive hd _ _).mpr hfm.1
          · rw [maxRun_append_inactive hd]
            intro j hj hw
            exact hfm.2 j hj ((windowAll_append_inactive hd _ _).mp hw)
      rw [bestLoop, if_neg hd, hlen1]
      exact ih (p ++ [d]) _ _ _ _ h1 h2 h3

theorem bestIndices_spec (days : List ContributionDay) (h2 : 2 ≤ maxRun days) :
    ∃ s : ℕ, firstMaxAt days s ∧
      bestIndices days = ((s : ℤ), (s : ℤ) + (maxRun days : ℤ) - 1) := by
  have hinv := bestLoop_inv days [] (-1) (-1) 0 0 rfl
    (fun h => absurd h (by omega)) (Or.inl ⟨by decide, rfl, rfl⟩)
  simp only [List.nil_append, List.length_nil] at hinv
  rcases hinv with ⟨hM1, _, _⟩ | ⟨_, s, hfm, hbs, hbe⟩
  · omega
  · refine ⟨s, hfm, Prod.ext_iff.mpr ⟨?_, ?_⟩⟩
    · simpa [bestIndices] using hbs
    · simpa [bestIndices] using hbe

/-- C7 (amended): when the longest streak is at least 2, the
`(bestStart, bestEnd)` pair computed for the range display is the first run
of consecutive active days achieving the maximum run length, with
`bestEnd - bestStart + 1 = longestStreak` and both bounds valid indices.
(When the longest streak is exactly 1, the pair keeps its `-1` sentinels —
see the counterexample.) -/
theorem C7_best_indices_amended :
    ∀ days : List ContributionDay, 2 ≤ (computeStreaks days).longestStreak →
      ∃ s : ℕ, firstMaxAt days s ∧
        bestIndices days =
          ((s : ℤ), (s : ℤ) + ((computeStreaks days).longestStreak : ℤ) - 1) ∧
        (bestIndices days).2 - (bestIndices days).1 + 1 =
          ((computeStreaks days).longestStreak : ℤ) ∧
        0 ≤ (bestIndices days).1 ∧
        (bestIndices days).2 < (days.length : ℤ) := by
  intro days h2
  rw [computeStreaks_longest] at h2 ⊢
  obtain ⟨s, hfm, hpair⟩ := bestIndices_spec days h2
  have hM0 : 0 < maxRun days := by omega
  have hs := windowAll_le_length hM0 hfm.1
  refine ⟨s, hfm, hpair, ?_, ?_, ?_⟩
  · rw [hpair]
    simp
    ring
  · rw [hpair]
    simp
  · rw [hpair]
    simp
    omega

/-- C7 counterexample: on the single-day sequence with one contribution the
longest streak is 1, yet the computed pair stays at the `-1` sentinels, so it
is not the index pair of the first maximal run and its bounds are not valid
indices. -/
theorem C7_best_indices_counterexample :
    bestIndices [⟨"2024-01-01", 1⟩] = (-1, -1) ∧
    (computeStreaks [⟨"2024-01-01", 1⟩]).longestStreak = 1 ∧
    ¬ 0 ≤ (bestIndices [⟨"2024-01-01", 1⟩]).1 := by
  refine ⟨rfl, rfl, ?_⟩
  decide

/-- C7 witness: the amended theorem applied to the counts `[0,1,1]`. -/
theorem C7_best_indices_amended_witness :
    ∃ s : ℕ,
      firstMaxAt [⟨"2024-01-01", 0⟩, ⟨"2024-01-02", 1⟩, ⟨"2024-01-03", 2⟩] s ∧
      bestIndices [⟨"2024-01-01", 0⟩, ⟨"2024-01-02", 1⟩, ⟨"2024-01-03", 2⟩] =
        ((s : ℤ), (s : ℤ) + ((computeStreaks [⟨"2024-01-01", 0⟩, ⟨"2024-01-02", 1⟩,
          ⟨"2024-01-03", 2⟩]).longestStreak : ℤ) - 1) ∧
      (bestIndices [⟨"2024-01-01", 0⟩, ⟨"2024-01-02", 1⟩, ⟨"2024-01-03", 2⟩]).2 -
          (bestIndices [⟨"2024-01-01", 0⟩, ⟨"2024-01-02", 1⟩, ⟨"2024-01-03", 2⟩]).1 + 1 =
        ((computeStreaks [⟨"2024-01-01", 0⟩, ⟨"2024-01-02", 1⟩,
          ⟨"2024-01-03", 2⟩]).longestStreak : ℤ) ∧
      0 ≤ (bestIndices [⟨"2024-01-01", 0⟩, ⟨"2024-01-02", 1⟩, ⟨"2024-01-03", 2⟩]).1 ∧
      (bestIndices [⟨"2024-01-01", 0⟩, ⟨"2024-01-02", 1⟩, ⟨"2024-01-03", 2⟩]).2 <
        (([⟨"2024-01-01", 0⟩, ⟨"2024-01-02", 1⟩, ⟨"2024-01-03", 2⟩] :
          List ContributionDay).length : ℤ) :=
  C7_best_indices_amended
    [⟨"2024-01-01", 0⟩, ⟨"2024-01-02", 1⟩, ⟨"2024-01-03", 2⟩] (by decide)

/-! ### Language-aggregation lemmas -/

theorem insertShare_perm (x : LangShare) :
    ∀ l : List LangShare, (insertShare x l).Perm (x :: l)
  | [] => List.Perm.refl _
  | y :: ys => by
    by_cases h : shareLE x y
    · rw [insertShare, if_pos h]
    · rw [insertShare, if_neg h]
      exact (List.Perm.cons y (insertShare_perm x ys)).trans (List.Perm.swap x y ys)

theorem sortShares_perm : ∀ l : List LangShare, (sortShares l).Perm l
  | [] => List.Perm.refl _
  | x :: xs =>
    (insertShare_perm x (sortShares xs)).trans (List.Perm.cons x (sortShares_perm xs))

theorem mem_insertShare {x y : LangShare} {l : List LangShare} :
    y ∈ insertShare x l ↔ y = x ∨ y ∈ l := by
  rw [(insertShare_perm x l).mem_iff, List.mem_cons]

theorem shareLE_true_le {a b : LangShare} (h : shareLE a b = true)
    (ha : a.percent.isSome) (hb : b.percent.isSome) :
    b.percent.getD 0 ≤ a.percent.getD 0 := by
  obtain ⟨x, hx⟩ := Option.isSome_iff_exists.mp ha
  obtain ⟨y, hy⟩ := Option.isSome_iff_exists.mp hb
  rw [hx, hy]
  rw [shareLE, hx, hy] at h
  simpa using h

theorem shareLE_false_le {a b : LangShare} (h : shareLE a b = false) :
    a.percent.getD 0 ≤ b.percent.getD 0 := by
  rcases ha : a.percent with _ | x <;> rcases hb : b.percent with _ | y <;>
    rw [shareLE, ha, hb] at h <;> simp at h
  simpa using le_of_lt h

theorem insertShare_pairwise {x : LangShare} {l : List LangShare}
    (hx : x.percent.isSome) (hl : ∀ s ∈ l, s.percent.isSome)
    (h : l.Pairwise fun a b => b.percent.getD 0 ≤ a.percent.getD 0) :
    (insertShare x l).Pairwise fun a b => b.percent.getD 0 ≤ a.percent.getD 0 := by
  induction l with
  | nil => simp [insertShare]
  | cons y ys ih =>
    rw [List.pairwise_cons] at h
    obtain ⟨h1, h2⟩ := h
    by_cases hc : shareLE x y = true
    · rw [insertShare, if_pos hc]
      refine List.Pairwise.cons ?_ (List.Pairwise.cons h1 h2)
      intro z hz
      have hxy := shareLE_true_le hc hx (hl y (by simp))
      rcases List.mem_cons.mp hz with hz | hz
      · rw [hz]
        exact hxy
      · exact le_trans (h1 z hz) hxy
    · rw [insertShare, if_neg hc]
      have hyx := shareLE_false_le (by simpa using hc)
      refine List.Pairwise.cons ?_ (ih (fun s hs => hl s (by simp [hs])) h2)
      intro z hz
      rcases mem_insertShare.mp hz with hz | hz
      · rw [hz]
        exact hyx
      · exact h1 z hz

theorem sortShares_pairwise {l : List LangShare}
    (hl : ∀ s ∈ l, s.percent.isSome) :
    (sortShares l).Pairwise fun a b => b.percent.getD 0 ≤ a.percent.getD 0 := by
  induction l with
  | nil => simp [sortShares]
  | cons x xs ih =>
    rw [sortShares]
    refine insertShare_pairwise (hl x (by simp)) ?_ (ih ?_)
    · intro s hs
      exact hl s (by simp [(sortShares_perm xs).mem_iff.mp hs])
    · intro s hs
      exact hl s (by simp [hs])

theorem foldl_add_size (l : List LangTotal) :
    ∀ a : ℕ, l.foldl (fun x t => x + t.size) a = a + (l.map LangTotal.size).sum := by
  induction l with
  | nil => intro a; simp
  | cons t ts ih =>
    intro a
    simp [List.foldl_cons, ih (a + t.size)]
    omega

theorem totalSize_eq (l : List LangTotal) :
    totalSize l = (l.map LangTotal.size).sum := by
  simpa using foldl_add_size l 0

theorem shareSum_toShares_cons (t : LangTotal) (ts : List LangTotal) (total : ℕ) :
    shareSum (toShares (t :: ts) total) =
      (jsPercent t.size total).getD 0 + shareSum (toShares ts total) := by
  simp [toShares, shareSum]

theorem shareSum_toShares (totals : List LangTotal) (total : ℕ) (h : total ≠ 0) :
    shareSum (toShares totals total) = ((totalSize totals : ℚ) / total) * 100 := by
  induction totals with
  | nil => simp [toShares, shareSum, totalSize]
  | cons t ts ih =>
    rw [shareSum_toShares_cons, ih, totalSize_eq, totalSize_eq]
    simp only [jsPercent, if_neg h, Option.getD_some, List.map_cons, List.sum_cons]
    push_cast
    ring

theorem jsPercent_getD_nonneg (a b : ℕ) : 0 ≤ (jsPercent a b).getD 0 := by
  rw [jsPercent]
  split
  · simp
  · simp
    positivity

theorem shareSum_append (l1 l2 : List LangShare) :
    shareSum (l1 ++ l2) = shareSum l1 + shareSum l2 := by
  simp [shareSum]

theorem shareSum_take_le (l : List LangShare) (n : ℕ)
    (h : ∀ s ∈ l, 0 ≤ s.percent.getD 0) : shareSum (l.take n) ≤ shareSum l := by
  conv_rhs => rw [← List.take_append_drop n l]
  rw [shareSum_append]
  have hdrop : 0 ≤ shareSum (l.drop n) := by
    refine List.sum_nonneg ?_
    intro x hx
    obtain ⟨y, hy, hyx⟩ := List.mem_map.mp hx
    rw [← hyx]
    exact h y (List.drop_subset n l hy)
  linarith

theorem shareSum_perm {l1 l2 : List LangShare} (h : l1.Perm l2) :
    shareSum l1 = shareSum l2 :=
  List.Perm.sum_eq (h.map _)

theorem mem_fetchTop {repos : List (List LangEdge)} {sh : LangShare}
    (h : sh ∈ fetchTopLanguagesPure repos) :
    sh ∈ toShares (aggregate repos) (totalSize (aggregate repos)) := by
  have h1 := List.take_subset 6 _ h
  exact (sortShares_perm _).mem_iff.mp h1

theorem aggregate_exampleA :
    aggregate exampleReposA =
      [⟨"JS", 1000, "#f1e05a"⟩, ⟨"Python", 400, "#3572A5"⟩] := by
  decide

theorem totalSize_exampleA :
    totalSize [⟨"JS", 1000, "#f1e05a"⟩, ⟨"Python", 400, "#3572A5"⟩] = 1400 := by
  decide

theorem exampleA_eval :
    (fetchTopLanguagesPure exampleReposA).map (fun s => (s.name, s.percent)) =
      [("JS", some ((500 : ℚ) / 7)), ("Python", some ((200 : ℚ) / 7))] := by
  rw [fetchTopLanguagesPure, aggregate_exampleA, totalSize_exampleA]
  have hcmp : shareLE ⟨"JS", "#f1e05a", some ((500 : ℚ) / 7)⟩
      ⟨"Python", "#3572A5", some ((200 : ℚ) / 7)⟩ = true := by
    simp only [shareLE, decide_eq_true_eq]
    norm_num
  norm_num [toShares, sortShares, insertShare, jsPercent, hcmp]

/-- C5 counterexample: on scenario A the language aggregator stores the exact
percentages 500/7 and 200/7; they are not equal to the two-decimal display
values 71.43 and 28.57 asserted by the claim. -/
theorem C5_top_languages_counterexample :
    (fetchTopLanguagesPure exampleReposA).map (fun s => s.percent) ≠
      [some (71.43 : ℚ), some (28.57 : ℚ)] := by
  have h1 : (fetchTopLanguagesPure exampleReposA).map (fun s => s.percent) =
      [some ((500 : ℚ) / 7), some ((200 : ℚ) / 7)] := by
    have h2 : (fetchTopLanguagesPure exampleReposA).map (fun s => s.percent) =
        ((fetchTopLanguagesPure exampleReposA).map
          (fun s => (s.name, s.percent))).map Prod.snd := by
      simp [List.map_map]
    rw [h2, exampleA_eval]
    rfl
  rw [h1]
  intro hc
  simp only [List.cons.injEq, Option.some.injEq] at hc
  exact absurd hc.1 (by norm_num)

/-- C5 (amended): for a positive total byte sum the aggregator returns
entries with `percent = 100 × bytes / totalBytes` exactly (each output entry
names an aggregated language and carries its exact percentage), sorted
descending by percent and truncated to at most 6 entries, with the
percentages summing to at most 100; on scenario A the aggregated totals are
JS=1000 and Python=400 and the exact percentages are 500/7 and 200/7, which
display as 71.43 and 28.57 after rounding to two decimals. -/
theorem C5_top_languages_amended :
    (∀ repos : List (List LangEdge), 0 < totalSize (aggregate repos) →
      (∀ sh ∈ fetchTopLanguagesPure repos, ∃ t ∈ aggregate repos,
        sh.name = t.name ∧ sh.color = t.color ∧
        sh.percent = some ((t.size : ℚ) / (totalSize (aggregate repos) : ℚ) * 100)) ∧
      List.Pairwise (fun a b => b.percent.getD 0 ≤ a.percent.getD 0)
        (fetchTopLanguagesPure repos) ∧
      (fetchTopLanguagesPure repos).length ≤ 6 ∧
      shareSum (fetchTopLanguagesPure repos) ≤ 100) ∧
    ((fetchTopLanguagesPure exampleReposA).map (fun s => (s.name, s.percent)) =
      [("JS", some ((500 : ℚ) / 7)), ("Python", some ((200 : ℚ) / 7))] ∧
     (aggregate exampleReposA).map (fun t => (t.name, t.size)) =
      [("JS", 1000), ("Python", 400)] ∧
     round ((500 : ℚ) / 7 * 100) = 7143 ∧ round ((200 : ℚ) / 7 * 100) = 2857) := by
  constructor
  · intro repos h0
    have hns : totalSize (aggregate repos) ≠ 0 := by omega
    refine ⟨?_, ?_, ?_, ?_⟩
    · intro sh hsh
      obtain ⟨t, ht, hts⟩ := List.mem_map.mp (mem_fetchTop hsh)
      refine ⟨t, ht, ?_, ?_, ?_⟩ <;> rw [← hts]
      · rw [jsPercent, if_neg hns]
    · refine List.Pairwise.sublist (List.take_sublist _ _) ?_
      refine sortShares_pairwise ?_
      intro sh hsh
      obtain ⟨t, ht, hts⟩ := List.mem_map.mp hsh
      rw [← hts]
      simp [jsPercent, hns]
    · rw [fetchTopLanguagesPure]
      simp [List.length_take]
    · have h1 : shareSum (fetchTopLanguagesPure repos) ≤
          shareSum (sortShares (toShares (aggregate repos)
            (totalSize (aggregate repos)))) := by
        refine shareSum_take_le _ 6 ?_
        intro sh hsh
        obtain ⟨t, ht, hts⟩ := List.mem_map.mp ((sortShares_perm _).mem_iff.mp hsh)
        rw [← hts]
        exact jsPercent_getD_nonneg _ _
      have h2 := shareSum_perm (sortShares_perm (toShares (aggregate repos)
        (totalSize (aggregate repos))))
      have h3 := shareSum_toShares (aggregate repos) (totalSize (aggregate repos)) hns
      have h4 : ((totalSize (aggregate repos) : ℚ)) / (totalSize (aggregate repos) : ℚ) = 1 :=
        div_self (by exact_mod_cast hns)
      rw [h2, h3, h4] at h1
      linarith
  · refine ⟨exampleA_eval, by rw [aggregate_exampleA]; rfl, ?_, ?_⟩
    · rw [round_eq, Int.floor_eq_iff]
      norm_num
    · rw [round_eq, Int.floor_eq_iff]
      norm_num

/-- C5 witness: the amended theorem applied to scenario A (truncation part). -/
theorem C5_top_languages_amended_witness :
    (fetchTopLanguagesPure exampleReposA).length ≤ 6 :=
  (C5_top_languages_amended.1 exampleReposA (by decide)).2.2.1

/-- C6: with a zero total byte sum the aggregator is supposed to return an
empty list and no NaN, but on a single zero-size language entry the code
returns a non-empty list whose percent is the non-finite value (`0/0`,
JavaScript NaN, modelled as `none`); only the no-entries-at-all case is
empty. -/
theorem C6_zero_total_nan :
    fetchTopLanguagesPure [[⟨0, "JS", none⟩]] =
      [{ name := "JS", color := defaultColor, percent := none }] ∧
    fetchTopLanguagesPure [[⟨0, "JS", none⟩]] ≠ [] ∧
    fetchTopLanguagesPure [] = [] := by
  refine ⟨by decide, by decide, rfl⟩

/-- C8: a failed commit search is caught and degraded to a commit count of
0 instead of propagating, and the stats fan-in with an erroring commit
search still succeeds (sibling computations proceed) with commits = 0. -/
theorem C8_commit_search_failure_degrades :
    (∀ (login e : String),
      fetchTotalCommitsAllTime login (Except.error e) = 0) ∧
    (∀ (login e : String) (rd : RepoAggregate) (rv fl : ℕ),
      statsAggregate login (Except.ok rd) (Except.error e)
        (Except.ok rv) (Except.ok fl) = Except.ok (rd, 0, rv, fl)) := by
  have h0 : ∀ (login e : String),
      fetchTotalCommitsAllTime login (Except.error e) = 0 := by
    intro login e
    rw [fetchTotalCommitsAllTime]
    split <;> rfl
  refine ⟨h0, ?_⟩
  intro login e rd rv fl
  show Except.ok (rd, fetchTotalCommitsAllTime login (Except.error e), rv, fl) =
    Except.ok (rd, 0, rv, fl)
  rw [h0]

/-- C9 counterexample: with the username configured and the token absent,
the streak pipeline's validation reports no error (it never checks the
token), while the stats and top-languages pipelines do. -/
theorem C9_precheck_counterexample :
    streakPrecheckError (some "user") none = none ∧
    (statsPrecheckError (some "user") none).isSome = true ∧
    (topLangPrecheckError (some "user") none).isSome = true := by
  refine ⟨by decide, by decide, by decide⟩

/-- C9 (amended): the stats and top-languages pipelines short-circuit with a
failure exactly when the account identity or the token is absent, but the
streak pipeline validates only the account identity (a missing token is not
detected there); a failing precheck short-circuits the card into the error
output regardless of the fetch outcome. -/
theorem C9_precheck_amended :
    (∀ u t : Option String,
      ((statsPrecheckError u t).isSome = true ↔
        isFalsy u = true ∨ isFalsy t = true) ∧
      ((topLangPrecheckError u t).isSome = true ↔
        isFalsy u = true ∨ isFalsy t = true) ∧
      ((streakPrecheckError u t).isSome = true ↔ isFalsy u = true)) ∧
    (∀ (msg : String) (fetch : Except String String),
      runCard (some msg) fetch = Except.error msg) := by
  constructor
  · intro u t
    refine ⟨?_, ?_, ?_⟩ <;>
      by_cases h1 : isFalsy u = true <;>
      by_cases h2 : isFalsy t = true <;>
      simp [statsPrecheckError, topLangPrecheckError, streakPrecheckError, h1, h2]
  · intro msg fetch
    rfl

end GRC
